import Mathlib

/-!
Shallow embedding of the validation-and-normalization pipeline of the
streamlit-echem repository (src/data_loader.py, src/file_scanner.py,
src/googlesheet_loader.py).  Numeric cell values are modelled as exact
rationals, remote collaborators (Drive/Sheets transport) as function
parameters, and Python exceptions as `Except` values.
-/

namespace EChem

/-! ## Python string primitives -/

/-- The whitespace characters removed by Python `str.strip()`. -/
def isPySpace (c : Char) : Bool :=
  c = ' ' || c = '\t' || c = '\n' || c = '\r' || c = '\x0b' || c = '\x0c'

/-- Remove leading whitespace (Python `str.lstrip()`). -/
def lstrip (s : List Char) : List Char := s.dropWhile isPySpace

/-- Remove trailing whitespace (Python `str.rstrip()`). -/
def rstrip (s : List Char) : List Char := (s.reverse.dropWhile isPySpace).reverse

/-- Python `str.strip()`: remove leading and trailing whitespace. -/
def pyStrip (s : List Char) : List Char := rstrip (lstrip s)

/-- `str.strip()` lifted to `String`; this is the normalization applied to
raw-table column names by `df.columns.str.strip()` (data_loader.py line 86)
and to metadata keys by `s.index.str.strip()` (googlesheet_loader.py line 71). -/
def stripStr (s : String) : String := ⟨pyStrip s.data⟩

/-- Python `str.replace("\n", " ")`: each newline becomes one space. -/
def replaceNL (s : List Char) : List Char :=
  s.map (fun c => if c = '\n' then ' ' else c)

/-- Sheet-header normalization `(h or "").replace("\n", " ").strip()`
from googlesheet_loader.py line 27. -/
def normalizeSheetHeader (h : String) : String := ⟨pyStrip (replaceNL h.data)⟩

/-- Python `str.endswith(suffix)`. -/
def pyEndsWith (s sfx : String) : Bool := sfx.data.isSuffixOf s.data

/-! ## Model of Python `float()`

`float(x)` strips whitespace and accepts an optional sign followed by
either the special values `nan` / `inf` / `infinity` (case-insensitive) or
a decimal literal: an integer part and an optional fractional part (at
least one digit overall), an optional `e`/`E` exponent, with single
underscores allowed between digits.  Finite values are kept exact
(no binary rounding or double overflow). -/

/-- Value of a Python float: an exact finite value, a NaN, or a signed
infinity. -/
inductive PyFloat where
  | finite (q : ℚ)
  | nan
  | posInf
  | negInf
deriving DecidableEq

/-- The IEEE comparison `x <= 0` on a Python float: `False` for NaN and
`+inf`, `True` for `-inf`. -/
def PyFloat.leZero : PyFloat → Bool
  | .finite q => decide (q ≤ 0)
  | .nan => false
  | .posInf => false
  | .negInf => true

/-- ASCII decimal digit, the class `\d` restricted to `0-9` (codes 48-57). -/
def isAsciiDigit (c : Char) : Bool := 48 ≤ c.toNat && c.toNat ≤ 57

/-- A character allowed inside a digit group: a digit or an underscore. -/
def isDigitU (c : Char) : Bool := isAsciiDigit c || c = '_'

/-- Lower-case an ASCII letter (for the case-insensitive special values). -/
def asciiLower (c : Char) : Char :=
  if 65 ≤ c.toNat && c.toNat ≤ 90 then Char.ofNat (c.toNat + 32) else c

/-- After an initial digit: the remaining characters of a digit group, in
which each underscore must sit between two digits. -/
def validGroupTail : List Char → Bool
  | [] => true
  | '_' :: c :: rest => isAsciiDigit c && validGroupTail rest
  | '_' :: [] => false
  | c :: rest => isAsciiDigit c && validGroupTail rest

/-- A non-empty digit group with single underscores between digits
(Python numeric-literal grammar). -/
def validGroup : List Char → Bool
  | [] => false
  | c :: rest => isAsciiDigit c && validGroupTail rest

/-- Numeric value of one decimal digit. -/
def digitVal (c : Char) : ℚ := ((c.toNat - '0'.toNat : ℕ) : ℚ)

/-- Value of a digit string read as an integer part. -/
def digitsVal (ds : List Char) : ℚ := ds.foldl (fun a c => a * 10 + digitVal c) 0

/-- Value of a digit string read as a fractional part. -/
def fracVal (ds : List Char) : ℚ := ds.foldr (fun c a => (digitVal c + a) / 10) 0

/-- Value of a digit string read as a natural-number exponent. -/
def expVal (ds : List Char) : ℕ := ds.foldl (fun a c => a * 10 + (c.toNat - 48)) 0

/-- Parse the optional exponent part after a mantissa of value `v`. -/
def pyFloatExp (v : ℚ) : List Char → Option PyFloat
  | [] => some (.finite v)
  | e :: r2 =>
    if e = 'e' || e = 'E' then
      let es : Bool × List Char :=
        match r2 with
        | '+' :: r3 => (false, r3)
        | '-' :: r3 => (true, r3)
        | r3 => (false, r3)
      let eRun := es.2.takeWhile isDigitU
      let eRest := es.2.dropWhile isDigitU
      if validGroup eRun && eRest.isEmpty then
        let e10 : ℕ := expVal (eRun.filter isAsciiDigit)
        some (.finite (if es.1 then v / (10 : ℚ) ^ e10 else v * (10 : ℚ) ^ e10))
      else none
    else none

/-- Model of Python `float()` on a string: strip, optional sign, then `nan`
/ `inf` / `infinity` (case-insensitive) or a decimal literal with optional
fraction and exponent; `none` when the string is not accepted. -/
def pyFloat (s : List Char) : Option PyFloat :=
  let t := pyStrip s
  let sr : Bool × List Char :=
    match t with
    | '+' :: r => (false, r)
    | '-' :: r => (true, r)
    | r => (false, r)
  let lower := sr.2.map asciiLower
  if lower = ['n', 'a', 'n'] then some .nan
  else if lower = ['i', 'n', 'f'] || lower = ['i', 'n', 'f', 'i', 'n', 'i', 't', 'y'] then
    some (if sr.1 then .negInf else .posInf)
  else
    let ipRun := sr.2.takeWhile isDigitU
    let afterIp := sr.2.dropWhile isDigitU
    if ipRun.isEmpty || validGroup ipRun then
      let mkVal : List Char → List Char → ℚ := fun ip fp =>
        let m := digitsVal (ip.filter isAsciiDigit) + fracVal (fp.filter isAsciiDigit)
        if sr.1 then -m else m
      match afterIp with
      | '.' :: r2 =>
        let fpRun := r2.takeWhile isDigitU
        let afterFp := r2.dropWhile isDigitU
        if (fpRun.isEmpty || validGroup fpRun) && !(ipRun.isEmpty && fpRun.isEmpty) then
          pyFloatExp (mkVal ipRun fpRun) afterFp
        else none
      | rest => if ipRun.isEmpty then none else pyFloatExp (mkVal ipRun []) rest
    else none

/-! ## Data model -/

/-- A cell of the raw table: a number, a raw string, or a missing value
(pandas `NaN`). -/
inductive CellVal where
  | num (q : ℚ)
  | str (s : String)
  | missing
deriving DecidableEq

/-- A pandas `DataFrame` as produced by `pd.read_csv`: named columns over a
list of rows. -/
structure RawTable where
  columns : List String
  rows : List (List CellVal)
deriving DecidableEq

/-- A `MetadataRecord`: the dict `metadata_series.to_dict()`, keys in
insertion order. -/
abbrev Metadata := List (String × String)

/-- First-match association lookup (Python `dict` access / `in`). -/
def alookup {α : Type} (k : String) : List (String × α) → Option α
  | [] => none
  | p :: rest => if p.1 = k then some p.2 else alookup k rest

/-- Index of the first column with the given name. -/
def colIdx (c : String) : List String → Option Nat
  | [] => none
  | x :: xs => if x = c then some 0 else (colIdx c xs).map (· + 1)

/-- Column access `df[c]`: the column's cells in row order, or `none` when
the column is absent. -/
def getCol (t : RawTable) (c : String) : Option (List CellVal) :=
  (colIdx c t.columns).map (fun i => t.rows.map (fun r => r.getD i CellVal.missing))

/-- Column assignment `df[c] = vals`: overwrite the column in place when the
name exists, otherwise append it as a new last column. -/
def setCol (t : RawTable) (c : String) (vals : List CellVal) : RawTable :=
  match colIdx c t.columns with
  | some i => ⟨t.columns, List.zipWith (fun r v => r.set i v) t.rows vals⟩
  | none => ⟨t.columns ++ [c], List.zipWith (fun r v => r ++ [v]) t.rows vals⟩

/-- `pd.to_numeric(cell, errors="raise")` on one cell: numbers pass, `NaN`
stays `NaN` (`none`), strings must parse as numbers (a `"nan"` string also
coerces to `NaN`); the error carries the offending string.  A string
parsing to an infinity has no representation among the exact cell values
and is treated as non-convertible here — no claim concerns infinite
capacities. -/
def toNumericCell : CellVal → Except String (Option ℚ)
  | .num q => .ok (some q)
  | .missing => .ok none
  | .str s =>
    match pyFloat s.data with
    | some (.finite q) => .ok (some q)
    | some .nan => .ok none
    | _ => .error s

/-- `pd.to_numeric(series, errors="raise")`: coerce each cell, aborting at
the first non-convertible one. -/
def toNumericList : List CellVal → Except String (List (Option ℚ))
  | [] => .ok []
  | c :: cs =>
    match toNumericCell c with
    | .error s => .error s
    | .ok q =>
      match toNumericList cs with
      | .error s => .error s
      | .ok qs => .ok (q :: qs)

/-! ## Errors

The Python code raises `KeyError` / `ValueError` / `AssertionError` with
messages; the spec names the abstract kinds.  One constructor per distinct
raise site, carrying the data its message interpolates. -/

inductive LoadError where
  /-- data_loader.py line 25: `KeyError` for an absent capacity column. -/
  | missingColumn (col : String) (available : List String)
  /-- data_loader.py lines 27/53: `pd.to_numeric(..., errors="raise")`
  failed on the given cell string. -/
  | nonNumericData (col : String) (cell : String)
  /-- data_loader.py line 42: `KeyError` for an absent mass field. -/
  | missingField (field : String)
  /-- data_loader.py line 46: `ValueError`, mass value not numeric. -/
  | nonNumericMass (field : String) (value : String)
  /-- data_loader.py line 48: `ValueError`, mass not `> 0`. -/
  | nonPositiveMass
  /-- data_loader.py line 56: `AssertionError`, `NaN` capacity. -/
  | invalidCapacityNaN
  /-- data_loader.py line 57: `AssertionError`, negative capacity. -/
  | invalidCapacityNegative
  /-- data_loader.py line 98: `ValueError`, map entry without file id. -/
  | missingFileId (cellId : String)
  /-- A failure raised inside a collaborator (transport/lookup), carrying
  its internal message. -/
  | collaboratorError (msg : String)
deriving DecidableEq

/-! ## Validator and Normalizer (data_loader.py) -/

/-- `_validate_capacity_column` (data_loader.py lines 23-27). -/
def validateCapacityColumn (capacityCol : String) (t : RawTable) :
    Except LoadError Unit :=
  match getCol t capacityCol with
  | none => .error (.missingColumn capacityCol t.columns)
  | some cells =>
    match toNumericList cells with
    | .error s => .error (.nonNumericData capacityCol s)
    | .ok _ => .ok ()

/-- The metadata mass check inlined in `add_normalized_capacity`
(data_loader.py lines 41-48): key present, `float(str(v).strip())`
succeeds, and the guard `if mass_mg <= 0` does not fire.  The guard is an
IEEE comparison, so a NaN or `+inf` mass passes it. -/
def validateMass (massKey : String) (md : Metadata) : Except LoadError PyFloat :=
  match alookup massKey md with
  | none => .error (.missingField massKey)
  | some v =>
    match pyFloat (pyStrip v.data) with
    | none => .error (.nonNumericMass massKey v)
    | some m => if m.leZero then .error .nonPositiveMass else .ok m

/-- Default capacity column name (data_loader.py line 33). -/
def capacityColDefault : String := "Capacity/mA.h"

/-- Default mass field name (data_loader.py line 34). -/
def massKeyDefault : String := "WE Active Material Mass (mg)"

/-- Name of the derived column (data_loader.py line 60). -/
def normalizedColName : String := "Normalized Capacity (mAh/g)"

/-- One cell of `cap / mass_g` in float semantics, for a finite capacity
`q` and `mass_g = mass_mg / 1000`: a finite positive mass gives the exact
quotient, a NaN mass gives NaN (a missing cell), an infinite mass gives
(signed) zero. -/
def normalizeCell (massMg : PyFloat) (q : ℚ) : CellVal :=
  match massMg with
  | .finite m => .num (q / (m / 1000))
  | .nan => .missing
  | .posInf => .num 0
  | .negInf => .num 0

/-- `add_normalized_capacity` (data_loader.py lines 30-71): validate, convert
the capacity column, reject `NaN`/negative capacities, then assign
`cap / (mass_mg / 1000)` as the new column on the same table. -/
def addNormalizedCapacity (capacityCol massKey : String) (t : RawTable)
    (md : Metadata) : Except LoadError RawTable :=
  match validateCapacityColumn capacityCol t with
  | .error e => .error e
  | .ok _ =>
    match validateMass massKey md with
    | .error e => .error e
    | .ok massMg =>
      match toNumericList ((getCol t capacityCol).getD []) with
      | .error s => .error (.nonNumericData capacityCol s)
      | .ok cap =>
        if cap.any (fun q => q.isNone) then .error .invalidCapacityNaN
        else if cap.any (fun q => decide (q.getD 0 < 0)) then
          .error .invalidCapacityNegative
        else .ok (setCol t normalizedColName
          (cap.map (fun q => normalizeCell massMg (q.getD 0))))

/-- Row of only missing values (what `dropna(how="all")` removes). -/
def isEmptyRow (r : List CellVal) : Bool := r.all (fun c => c = CellVal.missing)

/-- The post-parse normalization of `download_and_parse_txt_file`
(data_loader.py lines 86-87) applied to the table `pd.read_csv` produced:
strip the column names, drop fully-empty rows. -/
def parseTxtTable (t : RawTable) : RawTable :=
  ⟨t.columns.map stripStr, t.rows.filter (fun r => !isEmptyRow r)⟩

/-! ## Loader orchestration (data_loader.py lines 92-115) -/

/-- One value of the per-cell map built by the scanner. -/
structure FileInfo where
  fileId : String
  filename : String
  modifiedTime : String
  size : String
deriving DecidableEq

/-- `load_all_cell_data`: the collaborators `download_and_parse_txt_file`
and `load_googlesheet` are passed as functions; any raised error propagates
immediately and aborts the remaining cells, exactly as an uncaught Python
exception leaves the `for` loop. -/
def loadAllCellData (fetchRaw : String → Except LoadError RawTable)
    (fetchMeta : String → Except LoadError Metadata) :
    List (String × FileInfo) → Except LoadError (List (String × (RawTable × Metadata)))
  | [] => .ok []
  | (cellId, info) :: rest =>
    if info.fileId = "" then .error (.missingFileId cellId)
    else
      match fetchRaw info.fileId with
      | .error e => .error e
      | .ok raw =>
        match fetchMeta cellId with
        | .error e => .error e
        | .ok md =>
          match addNormalizedCapacity capacityColDefault massKeyDefault raw md with
          | .error e => .error e
          | .ok raw2 =>
            match loadAllCellData fetchRaw fetchMeta rest with
            | .error e => .error e
            | .ok acc => .ok ((cellId, (raw2, md)) :: acc)

/-! ## File scanner (file_scanner.py) -/

/-- ASCII letter, the class `[A-Za-z]` (codes 65-90 and 97-122). -/
def isAsciiLetter (c : Char) : Bool :=
  (65 ≤ c.toNat && c.toNat ≤ 90) || (97 ≤ c.toNat && c.toNat ≤ 122)

/-- `_extract_cell_id` (file_scanner.py lines 10-15): the anchored regex
`^([A-Za-z]{2,}\d{4,})_`.  Letters and digits are disjoint classes, so the
greedy match equals: maximal letter run (length at least 2), then maximal
digit run (length at least 4), then a literal underscore. -/
def extractCellId (filename : String) : Option String :=
  let letters := filename.data.takeWhile isAsciiLetter
  let r1 := filename.data.dropWhile isAsciiLetter
  let digits := r1.takeWhile isAsciiDigit
  let r2 := r1.dropWhile isAsciiDigit
  match r2 with
  | '_' :: _ =>
    if 2 ≤ letters.length && 4 ≤ digits.length then some ⟨letters ++ digits⟩
    else none
  | _ => none

/-- A listed Drive file as consumed by the scanner loop. -/
structure DriveFile where
  id : String
  name : String
  modifiedTime : String
  size : String
deriving DecidableEq

/-- Outcome of the loop body of `get_available_cell_ids_from_drive` for one
file (file_scanner.py lines 44-52): non-`.txt` files are skipped with no
output, files whose name yields no cell id are skipped with a printed
reason, the rest contribute a candidate id. -/
inductive ScanOutcome where
  | skippedSilently
  | skippedReported (filename : String)
  | candidate (cellId : String)
deriving DecidableEq

/-- Classify one listed file (file_scanner.py lines 44-52). -/
def scanFile (f : DriveFile) : ScanOutcome :=
  if !pyEndsWith f.name ".txt" then .skippedSilently
  else
    match extractCellId f.name with
    | none => .skippedReported f.name
    | some cid => .candidate cid

/-- The descriptor stored for a file (file_scanner.py lines 56-61). -/
def describeFile (f : DriveFile) : FileInfo :=
  ⟨f.id, f.name, f.modifiedTime, f.size⟩

/-- One iteration of the scanner loop: a candidate id is inserted only when
not already present (`if cell_id not in cell_map`). -/
def stepCellMap (acc : List (String × FileInfo)) (f : DriveFile) :
    List (String × FileInfo) :=
  match scanFile f with
  | .skippedSilently => acc
  | .skippedReported _ => acc
  | .candidate cid =>
    if (alookup cid acc).isSome then acc
    else acc ++ [(cid, describeFile f)]

/-- `get_available_cell_ids_from_drive` (file_scanner.py lines 27-68) over
the concatenated pages of listed files, in arrival order. -/
def buildCellMap (files : List DriveFile) : List (String × FileInfo) :=
  files.foldl stepCellMap []

/-! ## String lemmas -/

theorem rstrip_eq_rdropWhile (s : List Char) : rstrip s = List.rdropWhile isPySpace s := rfl

/-- `dropWhile` fixes every prefix of one of its fixed points. -/
theorem dropWhile_eq_self_of_isPrefixOf {p : Char → Bool} {l m : List Char}
    (hp : l <+: m) (hm : m.dropWhile p = m) : l.dropWhile p = l := by
  cases l with
  | nil => rfl
  | cons a l' =>
    obtain ⟨t, ht⟩ := hp
    subst ht
    rw [List.cons_append] at hm
    by_cases ha : p a
    · exfalso
      rw [List.dropWhile_cons_of_pos ha] at hm
      have hle : (List.dropWhile p (l' ++ t)).length ≤ (l' ++ t).length :=
        (List.dropWhile_suffix p).length_le
      rw [hm] at hle
      simp at hle
    · rw [List.dropWhile_cons_of_neg ha]

theorem pyStrip_idempotent (s : List Char) : pyStrip (pyStrip s) = pyStrip s := by
  unfold pyStrip
  have h1 : lstrip (lstrip s) = lstrip s := List.dropWhile_idempotent _ _
  have h2 : rstrip (lstrip s) <+: lstrip s := by
    rw [rstrip_eq_rdropWhile]
    exact List.rdropWhile_prefix _ _
  have h3 : lstrip (rstrip (lstrip s)) = rstrip (lstrip s) :=
    dropWhile_eq_self_of_isPrefixOf h2 h1
  rw [h3, rstrip_eq_rdropWhile, rstrip_eq_rdropWhile]
  exact List.rdropWhile_idempotent _ _

theorem stripStr_idempotent (s : String) : stripStr (stripStr s) = stripStr s :=
  congrArg String.mk (pyStrip_idempotent s.data)

/-- Characters surviving `pyStrip` come from the input. -/
theorem mem_of_mem_pyStrip {c : Char} {s : List Char} (h : c ∈ pyStrip s) : c ∈ s := by
  have h1 : pyStrip s <+: lstrip s := List.rdropWhile_prefix _ _
  have h2 : lstrip s <:+ s := List.dropWhile_suffix _
  exact h2.subset (h1.subset h)

theorem replaceNL_no_newline (s : List Char) : ∀ c ∈ replaceNL s, c ≠ '\n' := by
  intro c hc
  simp only [replaceNL, List.mem_map] at hc
  obtain ⟨a, _, ha⟩ := hc
  by_cases h : a = '\n'
  · rw [if_pos h] at ha
    rw [← ha]
    decide
  · rw [if_neg h] at ha
    rw [← ha]
    exact h

theorem replaceNL_eq_self {s : List Char} (h : ∀ c ∈ s, c ≠ '\n') : replaceNL s = s := by
  induction s with
  | nil => rfl
  | cons a t ih =>
    have ha : a ≠ '\n' := h a (by simp)
    simp only [replaceNL, List.map_cons, if_neg ha]
    rw [show List.map (fun c => if c = '\n' then ' ' else c) t = replaceNL t from rfl,
      ih (fun c hc => h c (by simp [hc]))]

theorem normalizeSheetHeader_idempotent (h : String) :
    normalizeSheetHeader (normalizeSheetHeader h) = normalizeSheetHeader h := by
  unfold normalizeSheetHeader
  apply congrArg String.mk
  have hnn : ∀ c ∈ pyStrip (replaceNL h.data), c ≠ '\n' :=
    fun c hc => replaceNL_no_newline h.data c (mem_of_mem_pyStrip hc)
  rw [show (String.mk (pyStrip (replaceNL h.data))).data = pyStrip (replaceNL h.data) from rfl,
    replaceNL_eq_self hnn, pyStrip_idempotent]

/-- C7, counterexample: the raw-table column normalization
(`df.columns.str.strip()`) does not collapse the embedded newline that the
sheet-header normalization collapses, so the two are not the same
normalization. -/
theorem c7_counterexample :
    stripStr "a\nb" = "a\nb" ∧ normalizeSheetHeader "a\nb" = "a b" ∧
      stripStr "a\nb" ≠ normalizeSheetHeader "a\nb" := by
  refine ⟨by decide, by decide, by decide⟩

/-- C7, amended: the sheet-header normalization strips whitespace, replaces
each embedded newline by a space and is idempotent; raw-table column names
are only stripped of leading/trailing whitespace (also idempotently), and
the two normalizations agree exactly on names without embedded newlines. -/
theorem c7_header_normalization :
    (∀ h : String, (normalizeSheetHeader h).data = pyStrip (replaceNL h.data)) ∧
    (∀ h : String, (stripStr h).data = pyStrip h.data) ∧
    (∀ h : String, normalizeSheetHeader (normalizeSheetHeader h) = normalizeSheetHeader h) ∧
    (∀ h : String, stripStr (stripStr h) = stripStr h) ∧
    (∀ h : String, ∀ c ∈ (normalizeSheetHeader h).data, c ≠ '\n') ∧
    (∀ h : String, '\n' ∉ h.data → normalizeSheetHeader h = stripStr h) := by
  refine ⟨fun h => rfl, fun h => rfl, normalizeSheetHeader_idempotent, stripStr_idempotent,
    fun h c hc => replaceNL_no_newline h.data c (mem_of_mem_pyStrip hc), fun h hn => ?_⟩
  unfold normalizeSheetHeader stripStr
  rw [replaceNL_eq_self (fun c hc hceq => hn (hceq ▸ hc))]

/-- Witness for `c7_header_normalization` at a concrete newline-free name. -/
theorem c7_header_normalization_witness :
    normalizeSheetHeader " Cell ID " = stripStr " Cell ID " :=
  c7_header_normalization.2.2.2.2.2 " Cell ID " (by decide)

/-! ## Lookup and column-index lemmas -/

theorem alookup_eq_none_iff {α : Type} (k : String) (l : List (String × α)) :
    alookup k l = none ↔ k ∉ l.map Prod.fst := by
  induction l with
  | nil => simp [alookup]
  | cons p rest ih =>
    simp only [alookup, List.map_cons, List.mem_cons]
    by_cases h : p.1 = k
    · simp [h]
    · rw [if_neg h, ih]
      constructor
      · intro hn
        push_neg
        exact ⟨fun hk => h hk.symm, hn⟩
      · intro hn
        push_neg at hn
        exact hn.2

theorem alookup_append {α : Type} (k : String) (l1 l2 : List (String × α)) :
    alookup k (l1 ++ l2) = (alookup k l1).or (alookup k l2) := by
  induction l1 with
  | nil => simp [alookup]
  | cons p rest ih =>
    by_cases h : p.1 = k <;> simp [alookup, h, ih]

theorem colIdx_eq_none_iff (c : String) (l : List String) :
    colIdx c l = none ↔ c ∉ l := by
  induction l with
  | nil => simp [colIdx]
  | cons x xs ih =>
    simp only [colIdx, List.mem_cons]
    by_cases h : x = c
    · simp [h]
    · rw [if_neg h]
      simp only [Option.map_eq_none', ih]
      constructor
      · intro hn
        push_neg
        exact ⟨fun hk => h hk.symm, hn⟩
      · intro hn
        push_neg at hn
        exact hn.2

theorem colIdx_lt_length {c : String} {l : List String} {i : Nat}
    (h : colIdx c l = some i) : i < l.length := by
  induction l generalizing i with
  | nil => simp [colIdx] at h
  | cons x xs ih =>
    by_cases hx : x = c
    · simp [colIdx, hx] at h
      simp only [List.length_cons]
      omega
    · simp only [colIdx, if_neg hx, Option.map_eq_some'] at h
      obtain ⟨j, hj, hji⟩ := h
      have := ih hj
      simp only [List.length_cons]
      omega

theorem colIdx_getElem {c : String} {l : List String} {i : Nat}
    (h : colIdx c l = some i) : l[i]? = some c := by
  induction l generalizing i with
  | nil => simp [colIdx] at h
  | cons x xs ih =>
    by_cases hx : x = c
    · simp [colIdx, hx] at h
      simp [← h, hx]
    · simp only [colIdx, if_neg hx, Option.map_eq_some'] at h
      obtain ⟨j, hj, hji⟩ := h
      subst hji
      simpa using ih hj

theorem colIdx_append (c : String) (l1 l2 : List String) :
    colIdx c (l1 ++ l2) = (colIdx c l1).or ((colIdx c l2).map (· + l1.length)) := by
  induction l1 with
  | nil => simp [colIdx]
  | cons x xs ih =>
    rw [show (x :: xs) ++ l2 = x :: (xs ++ l2) from rfl,
      show colIdx c (x :: (xs ++ l2)) =
        if x = c then some 0 else (colIdx c (xs ++ l2)).map (· + 1) from rfl,
      show colIdx c (x :: xs) =
        if x = c then some 0 else (colIdx c xs).map (· + 1) from rfl]
    by_cases hx : x = c
    · simp [hx]
    · rw [if_neg hx, if_neg hx, ih]
      cases hxs : colIdx c xs with
      | some j => simp
      | none =>
        cases h2 : colIdx c l2 with
        | none => simp
        | some j =>
          simp only [Option.map_none', Option.none_or, Option.map_some', List.length_cons]
          exact congrArg some (by omega)

theorem colIdx_concat_self {c : String} {l : List String} (h : c ∉ l) :
    colIdx c (l ++ [c]) = some l.length := by
  rw [colIdx_append, (colIdx_eq_none_iff c l).mpr h]
  simp [colIdx]

/-! ## Numeric-coercion lemmas -/

theorem toNumericList_ok_length {cells : List CellVal} {qs : List (Option ℚ)}
    (h : toNumericList cells = .ok qs) : qs.length = cells.length := by
  induction cells generalizing qs with
  | nil => simp [toNumericList] at h; simp [← h]
  | cons c cs ih =>
    simp only [toNumericList] at h
    cases hc : toNumericCell c with
    | error s => rw [hc] at h; exact absurd h (by simp)
    | ok q =>
      rw [hc] at h
      cases hcs : toNumericList cs with
      | error s => rw [hcs] at h; exact absurd h (by simp)
      | ok qs' =>
        rw [hcs] at h
        simp only [Except.ok.injEq] at h
        simp [← h, ih hcs]

theorem toNumericList_error_of_mem {cells : List CellVal} {cell : CellVal} {s : String}
    (hmem : cell ∈ cells) (herr : toNumericCell cell = .error s) :
    ∃ s', toNumericList cells = .error s' := by
  induction cells with
  | nil => simp at hmem
  | cons c cs ih =>
    simp only [toNumericList]
    cases hc : toNumericCell c with
    | error s' => exact ⟨s', rfl⟩
    | ok q =>
      rcases List.mem_cons.mp hmem with heq | htl
      · subst heq; rw [hc] at herr; exact absurd herr (by simp)
      · obtain ⟨s', hs'⟩ := ih htl
        rw [hs']
        exact ⟨s', rfl⟩

/-! ## C9: invariant of the fetched raw table -/

/-- C9, counterexample: the parse normalization neither forces column names
to stay unique after trimming (two raw names that differ only in whitespace
collapse to the same trimmed name) nor leaves at least one row (a table
whose rows are all fully empty ends up with zero rows). -/
theorem c9_counterexample :
    ¬ (parseTxtTable ⟨["a", "a "], [[CellVal.num 1, CellVal.num 2]]⟩).columns.Nodup ∧
      (parseTxtTable ⟨["a"], [[CellVal.missing]]⟩).rows = [] := by
  constructor
  · decide
  · decide

/-- C9, amended: every table returned by the raw-table fetch has trimmed
column names (trimming is idempotent on them) and contains no fully-empty
row, each surviving row coming unchanged from the input; uniqueness of the
trimmed names and non-emptiness of the surviving rows are not enforced. -/
theorem c9_parse_invariant (t : RawTable) :
    (parseTxtTable t).columns = t.columns.map stripStr ∧
    (∀ c ∈ (parseTxtTable t).columns, stripStr c = c) ∧
    (∀ r ∈ (parseTxtTable t).rows, isEmptyRow r = false) ∧
    (∀ r ∈ (parseTxtTable t).rows, r ∈ t.rows) := by
  refine ⟨rfl, ?_, ?_, ?_⟩
  · intro c hc
    simp only [parseTxtTable, List.mem_map] at hc
    obtain ⟨c0, _, hc0⟩ := hc
    rw [← hc0]
    exact stripStr_idempotent c0
  · intro r hr
    have := List.of_mem_filter hr
    simpa using this
  · intro r hr
    exact List.mem_of_mem_filter hr

/-- Witness for `c9_parse_invariant` on a concrete table with one kept and
one dropped row. -/
theorem c9_parse_invariant_witness :
    isEmptyRow [CellVal.num 1] = false :=
  (c9_parse_invariant ⟨[" a"], [[CellVal.num 1], [CellVal.missing]]⟩).2.2.1
    [CellVal.num 1] (by decide)

/-! ## C3: the metadata mass check (code bug on a NaN mass) -/

/-- C3: evaluation of the mass check at and around the failing input.  The
absent field, the non-numeric value, the zero mass and the `-inf` mass all
fail as the claim states, but the value `nan` passes the check (the guard
`mass_mg <= 0` is an IEEE comparison, `False` for NaN) with a parsed mass
that is not a strictly positive number — contradicting the code's own
`> 0` comment and error message, and the claim's "passes only when the
parsed mass is strictly positive". -/
theorem c3_mass_check_nan_passes :
    validateMass massKeyDefault [] = .error (.missingField massKeyDefault) ∧
    validateMass massKeyDefault [(massKeyDefault, "abc")]
      = .error (.nonNumericMass massKeyDefault "abc") ∧
    validateMass massKeyDefault [(massKeyDefault, "0")] = .error .nonPositiveMass ∧
    validateMass massKeyDefault [(massKeyDefault, "-inf")] = .error .nonPositiveMass ∧
    validateMass massKeyDefault [(massKeyDefault, "250")] = .ok (PyFloat.finite 250) ∧
    validateMass massKeyDefault [(massKeyDefault, "nan")] = .ok PyFloat.nan ∧
    ¬ ∃ q : ℚ, validateMass massKeyDefault [(massKeyDefault, "nan")]
        = .ok (PyFloat.finite q) ∧ 0 < q := by
  refine ⟨by with_unfolding_all rfl, by with_unfolding_all rfl, by with_unfolding_all rfl,
    by with_unfolding_all rfl, by with_unfolding_all rfl, by with_unfolding_all rfl, ?_⟩
  rintro ⟨q, hq, _⟩
  rw [show validateMass massKeyDefault [(massKeyDefault, "nan")] = .ok PyFloat.nan
    from by with_unfolding_all rfl] at hq
  exact absurd (Except.ok.inj hq) (by simp)

/-! ## C4: the raw-table capacity-column check -/

/-- C4: validation of the raw table fails with a `missingColumn` error
naming the missing capacity column and listing the available columns when
the column is absent, and with a `nonNumericData` error when the column
exists but some cell is not convertible to a number. -/
theorem c4_capacity_column_check (capacityCol : String) (t : RawTable) :
    (capacityCol ∉ t.columns →
      validateCapacityColumn capacityCol t =
        .error (.missingColumn capacityCol t.columns)) ∧
    (∀ cells cell s, getCol t capacityCol = some cells → cell ∈ cells →
      toNumericCell cell = .error s →
      ∃ s', validateCapacityColumn capacityCol t =
        .error (.nonNumericData capacityCol s')) := by
  constructor
  · intro h
    have hc : colIdx capacityCol t.columns = none := (colIdx_eq_none_iff _ _).mpr h
    simp [validateCapacityColumn, getCol, hc]
  · intro cells cell s hc hmem herr
    obtain ⟨s', hs'⟩ := toNumericList_error_of_mem hmem herr
    simp [validateCapacityColumn, hc, hs']

/-- Witness for `c4_capacity_column_check`: a table without the default
capacity column, and one whose capacity cell is a non-numeric string. -/
theorem c4_capacity_column_check_witness :
    validateCapacityColumn capacityColDefault ⟨["Time/s"], [[CellVal.num 1]]⟩ =
      .error (.missingColumn capacityColDefault ["Time/s"]) ∧
    ∃ s', validateCapacityColumn capacityColDefault
        ⟨[capacityColDefault], [[CellVal.str "abc"]]⟩ =
      .error (.nonNumericData capacityColDefault s') :=
  ⟨(c4_capacity_column_check capacityColDefault ⟨["Time/s"], [[CellVal.num 1]]⟩).1
      (by decide),
    (c4_capacity_column_check capacityColDefault
        ⟨[capacityColDefault], [[CellVal.str "abc"]]⟩).2
      [CellVal.str "abc"] (CellVal.str "abc") "abc" (by with_unfolding_all rfl)
      (by decide) (by with_unfolding_all rfl)⟩

/-! ## Characterization of `addNormalizedCapacity` -/

theorem validateCapacityColumn_ok_of {cc : String} {t : RawTable}
    {cells : List CellVal} {cap : List (Option ℚ)}
    (hc : getCol t cc = some cells) (h : toNumericList cells = .ok cap) :
    validateCapacityColumn cc t = .ok () := by
  simp only [validateCapacityColumn, hc, h]

/-- Destructuring of a successful run of `addNormalizedCapacity`. -/
theorem addNorm_ok_elim {cc mk : String} {t : RawTable} {md : Metadata} {t' : RawTable}
    (h : addNormalizedCapacity cc mk t md = .ok t') :
    ∃ massMg cap, validateCapacityColumn cc t = .ok () ∧
      validateMass mk md = .ok massMg ∧
      toNumericList ((getCol t cc).getD []) = .ok cap ∧
      cap.any (fun q => q.isNone) = false ∧
      cap.any (fun q => decide (q.getD 0 < 0)) = false ∧
      t' = setCol t normalizedColName
        (cap.map (fun q => normalizeCell massMg (q.getD 0))) := by
  unfold addNormalizedCapacity at h
  split at h
  · exact absurd h (by simp)
  next u hval =>
    split at h
    · exact absurd h (by simp)
    next massMg hm =>
      split at h
      · exact absurd h (by simp)
      next cap hcap =>
        split at h
        · exact absurd h (by simp)
        next h1 =>
          split at h
          · exact absurd h (by simp)
          next h2 =>
            simp only [Except.ok.injEq] at h
            exact ⟨massMg, cap, by cases u; exact hval, hm, hcap,
              Bool.of_not_eq_true h1, Bool.of_not_eq_true h2, h.symm⟩

/-- Evaluation of `addNormalizedCapacity` on the invalid-capacity branches. -/
theorem addNorm_invalid_eval {cc mk : String} {t : RawTable} {md : Metadata}
    {massMg : PyFloat} {cells : List CellVal} {cap : List (Option ℚ)}
    (hc : getCol t cc = some cells)
    (hcap : toNumericList cells = .ok cap)
    (hm : validateMass mk md = .ok massMg) :
    (cap.any (fun q => q.isNone) = true →
      addNormalizedCapacity cc mk t md = .error .invalidCapacityNaN) ∧
    (cap.any (fun q => q.isNone) = false →
      cap.any (fun q => decide (q.getD 0 < 0)) = true →
      addNormalizedCapacity cc mk t md = .error .invalidCapacityNegative) := by
  have hval := validateCapacityColumn_ok_of hc hcap
  have hcells : (getCol t cc).getD [] = cells := by rw [hc]; rfl
  constructor
  · intro h1
    simp [addNormalizedCapacity, hval, hm, hcells, hcap, h1]
  · intro h1 h2
    simp [addNormalizedCapacity, hval, hm, hcells, hcap, h1, h2]

/-! ## C5: invalid capacities abort normalization -/

/-- C5: when some capacity value after numeric coercion is missing (`NaN`)
or negative, normalization (with valid mass metadata) fails with one of the
two invalid-capacity errors; and a successful normalization implies no
coerced capacity was missing or negative, so such a value is never
propagated into the normalized column. -/
theorem c5_invalid_capacity (cc mk : String) (t : RawTable) (md : Metadata) :
    (∀ massMg cells cap, validateMass mk md = .ok massMg →
      getCol t cc = some cells → toNumericList cells = .ok cap →
      (none ∈ cap ∨ ∃ q : ℚ, some q ∈ cap ∧ q < 0) →
      addNormalizedCapacity cc mk t md = .error .invalidCapacityNaN ∨
        addNormalizedCapacity cc mk t md = .error .invalidCapacityNegative) ∧
    (∀ t', addNormalizedCapacity cc mk t md = .ok t' →
      ∀ cap, toNumericList ((getCol t cc).getD []) = .ok cap →
        none ∉ cap ∧ ∀ q : ℚ, some q ∈ cap → 0 ≤ q) := by
  constructor
  · intro massMg cells cap hm hc hcap hbad
    have heval := addNorm_invalid_eval hc hcap hm
    by_cases h1 : cap.any (fun q => q.isNone) = true
    · exact Or.inl (heval.1 h1)
    · have h1' : cap.any (fun q => q.isNone) = false := Bool.of_not_eq_true h1
      rcases hbad with hnone | ⟨q, hq, hneg⟩
      · exact absurd (List.any_eq_true.mpr ⟨none, hnone, rfl⟩) h1
      · refine Or.inr (heval.2 h1' (List.any_eq_true.mpr ⟨some q, hq, ?_⟩))
        simpa using hneg
  · intro t' h cap hcap
    obtain ⟨massMg, cap', _, _, hcap', h1, h2, _⟩ := addNorm_ok_elim h
    have hcc : cap' = cap := by
      rw [hcap] at hcap'
      exact (Except.ok.inj hcap').symm
    rw [hcc] at h1 h2
    constructor
    · intro hnone
      have hh : cap.any (fun q => q.isNone) = true := List.any_eq_true.mpr ⟨none, hnone, rfl⟩
      rw [hh] at h1
      exact absurd h1 (by simp)
    · intro q hq
      by_contra hneg
      have hh : cap.any (fun q => decide (q.getD 0 < 0)) = true :=
        List.any_eq_true.mpr ⟨some q, hq, by simpa using lt_of_not_le hneg⟩
      rw [hh] at h2
      exact absurd h2 (by simp)

/-- Witness for `c5_invalid_capacity`: a capacity column holding a missing
value makes normalization fail with an invalid-capacity error. -/
theorem c5_invalid_capacity_witness :
    addNormalizedCapacity capacityColDefault massKeyDefault
        ⟨[capacityColDefault], [[CellVal.missing]]⟩
        [(massKeyDefault, "250")] = .error .invalidCapacityNaN ∨
      addNormalizedCapacity capacityColDefault massKeyDefault
        ⟨[capacityColDefault], [[CellVal.missing]]⟩
        [(massKeyDefault, "250")] = .error .invalidCapacityNegative :=
  (c5_invalid_capacity capacityColDefault massKeyDefault
      ⟨[capacityColDefault], [[CellVal.missing]]⟩ [(massKeyDefault, "250")]).1
    (PyFloat.finite 250) [CellVal.missing] [none] (by with_unfolding_all rfl)
    (by with_unfolding_all rfl) (by with_unfolding_all rfl)
    (Or.inl (by decide))

/-! ## Column get/set lemmas -/

theorem setCol_eq_set {t : RawTable} {c : String} {i : Nat} (vals : List CellVal)
    (hidx : colIdx c t.columns = some i) :
    setCol t c vals = ⟨t.columns, List.zipWith (fun r v => r.set i v) t.rows vals⟩ := by
  unfold setCol
  rw [hidx]

theorem setCol_eq_append {t : RawTable} {c : String} (vals : List CellVal)
    (hidx : colIdx c t.columns = none) :
    setCol t c vals = ⟨t.columns ++ [c], List.zipWith (fun r v => r ++ [v]) t.rows vals⟩ := by
  unfold setCol
  rw [hidx]

theorem colIdx_isSome_of_mem {c : String} {l : List String} (h : c ∈ l) :
    ∃ i, colIdx c l = some i := by
  cases hc : colIdx c l with
  | none => exact absurd ((colIdx_eq_none_iff c l).mp hc) (by simp [h])
  | some i => exact ⟨i, rfl⟩

theorem setCol_columns_of_mem {t : RawTable} {c : String} (vals : List CellVal)
    (h : c ∈ t.columns) : (setCol t c vals).columns = t.columns := by
  obtain ⟨i, hi⟩ := colIdx_isSome_of_mem h
  rw [setCol_eq_set vals hi]

theorem setCol_columns_of_not_mem {t : RawTable} {c : String} (vals : List CellVal)
    (h : c ∉ t.columns) : (setCol t c vals).columns = t.columns ++ [c] := by
  rw [setCol_eq_append vals ((colIdx_eq_none_iff c t.columns).mpr h)]

theorem setCol_rows_length {t : RawTable} {c : String} {vals : List CellVal}
    (hlen : vals.length = t.rows.length) :
    (setCol t c vals).rows.length = t.rows.length := by
  cases hidx : colIdx c t.columns with
  | some i => rw [setCol_eq_set vals hidx]; simp [List.length_zipWith, hlen]
  | none => rw [setCol_eq_append vals hidx]; simp [List.length_zipWith, hlen]

theorem getCol_length {t : RawTable} {c : String} {cells : List CellVal}
    (hc : getCol t c = some cells) : cells.length = t.rows.length := by
  unfold getCol at hc
  cases hidx : colIdx c t.columns with
  | none => rw [hidx] at hc; simp at hc
  | some i =>
    rw [hidx] at hc
    simp only [Option.map_some', Option.some.injEq] at hc
    rw [← hc]
    simp

theorem map_getD_zipWith_set (i : Nat) (rows : List (List CellVal)) :
    ∀ vals : List CellVal, vals.length = rows.length → (∀ r ∈ rows, i < r.length) →
      (List.zipWith (fun r v => r.set i v) rows vals).map
        (fun r => r.getD i CellVal.missing) = vals := by
  induction rows with
  | nil =>
    intro vals hlen _
    rw [List.length_nil, List.length_eq_zero] at hlen
    subst hlen
    rfl
  | cons r rs ih =>
    intro vals hlen hlt
    cases vals with
    | nil => simp at hlen
    | cons v vs =>
      simp only [List.zipWith_cons_cons, List.map_cons]
      rw [ih vs (by simpa using hlen) (fun r' hr' => hlt r' (List.mem_cons_of_mem _ hr'))]
      have hi : i < r.length := hlt r (List.mem_cons_self _ _)
      rw [List.getD_eq_getElem?_getD, List.getElem?_set_eq_of_lt v hi, Option.getD_some]

theorem map_getD_zipWith_append (n : Nat) (rows : List (List CellVal)) :
    ∀ vals : List CellVal, vals.length = rows.length → (∀ r ∈ rows, r.length = n) →
      (List.zipWith (fun r v => r ++ [v]) rows vals).map
        (fun r => r.getD n CellVal.missing) = vals := by
  induction rows with
  | nil =>
    intro vals hlen _
    rw [List.length_nil, List.length_eq_zero] at hlen
    subst hlen
    rfl
  | cons r rs ih =>
    intro vals hlen hn
    cases vals with
    | nil => simp at hlen
    | cons v vs =>
      simp only [List.zipWith_cons_cons, List.map_cons]
      rw [ih vs (by simpa using hlen) (fun r' hr' => hn r' (List.mem_cons_of_mem _ hr'))]
      have hr : r.length = n := hn r (List.mem_cons_self _ _)
      rw [List.getD_eq_getElem?_getD, List.getElem?_append_right (by omega)]
      simp [hr]

theorem map_getD_zipWith_set_ne (i j : Nat) (hij : i ≠ j) (rows : List (List CellVal)) :
    ∀ vals : List CellVal, vals.length = rows.length →
      (List.zipWith (fun r v => r.set i v) rows vals).map
        (fun r => r.getD j CellVal.missing)
        = rows.map (fun r => r.getD j CellVal.missing) := by
  induction rows with
  | nil => intro vals _; simp
  | cons r rs ih =>
    intro vals hlen
    cases vals with
    | nil => simp at hlen
    | cons v vs =>
      simp only [List.zipWith_cons_cons, List.map_cons]
      rw [ih vs (by simpa using hlen)]
      congr 1
      rw [List.getD_eq_getElem?_getD, List.getD_eq_getElem?_getD,
        List.getElem?_set_ne hij]

theorem map_getD_zipWith_append_lt (j : Nat) (rows : List (List CellVal)) :
    ∀ vals : List CellVal, vals.length = rows.length → (∀ r ∈ rows, j < r.length) →
      (List.zipWith (fun r v => r ++ [v]) rows vals).map
        (fun r => r.getD j CellVal.missing)
        = rows.map (fun r => r.getD j CellVal.missing) := by
  induction rows with
  | nil => intro vals _ _; simp
  | cons r rs ih =>
    intro vals hlen hlt
    cases vals with
    | nil => simp at hlen
    | cons v vs =>
      simp only [List.zipWith_cons_cons, List.map_cons]
      rw [ih vs (by simpa using hlen) (fun r' hr' => hlt r' (List.mem_cons_of_mem _ hr'))]
      congr 1
      rw [List.getD_eq_getElem?_getD, List.getD_eq_getElem?_getD,
        List.getElem?_append_left (hlt r (List.mem_cons_self _ _))]

theorem getCol_setCol_self (t : RawTable) (c : String) (vals : List CellVal)
    (hwf : ∀ r ∈ t.rows, r.length = t.columns.length)
    (hlen : vals.length = t.rows.length) :
    getCol (setCol t c vals) c = some vals := by
  cases hidx : colIdx c t.columns with
  | some i =>
    have hi : i < t.columns.length := colIdx_lt_length hidx
    rw [setCol_eq_set vals hidx]
    unfold getCol
    simp only [hidx, Option.map_some']
    exact congrArg some (map_getD_zipWith_set i t.rows vals hlen
      (fun r hr => by rw [hwf r hr]; exact hi))
  | none =>
    rw [setCol_eq_append vals hidx]
    unfold getCol
    rw [show (⟨t.columns ++ [c], List.zipWith (fun r v => r ++ [v]) t.rows vals⟩ :
        RawTable).columns = t.columns ++ [c] from rfl,
      colIdx_concat_self ((colIdx_eq_none_iff c t.columns).mp hidx)]
    simp only [Option.map_some']
    exact congrArg some (map_getD_zipWith_append t.columns.length t.rows vals hlen hwf)

theorem getCol_setCol_ne (t : RawTable) (c c' : String) (vals : List CellVal)
    (hwf : ∀ r ∈ t.rows, r.length = t.columns.length)
    (hlen : vals.length = t.rows.length)
    (hmem : c' ∈ t.columns) (hne : c' ≠ c) :
    getCol (setCol t c vals) c' = getCol t c' := by
  obtain ⟨j, hj⟩ := colIdx_isSome_of_mem hmem
  have hjlt : j < t.columns.length := colIdx_lt_length hj
  cases hidx : colIdx c t.columns with
  | some i =>
    have hij : i ≠ j := by
      intro he
      subst he
      have h1 := colIdx_getElem hidx
      have h2 := colIdx_getElem hj
      rw [h1] at h2
      exact hne (Option.some.inj h2).symm
    rw [setCol_eq_set vals hidx]
    unfold getCol
    simp only [hj, Option.map_some']
    exact congrArg some (map_getD_zipWith_set_ne i j hij t.rows vals hlen)
  | none =>
    rw [setCol_eq_append vals hidx]
    unfold getCol
    rw [show (⟨t.columns ++ [c], List.zipWith (fun r v => r ++ [v]) t.rows vals⟩ :
        RawTable).columns = t.columns ++ [c] from rfl,
      colIdx_append, hj]
    simp only [Option.or_some, hj, Option.map_some']
    exact congrArg some (map_getD_zipWith_append_lt j t.rows vals hlen
      (fun r hr => by rw [hwf r hr]; exact hjlt))

theorem validateCapacityColumn_ok_elim {cc : String} {t : RawTable}
    (h : validateCapacityColumn cc t = .ok ()) :
    ∃ cells cap, getCol t cc = some cells ∧ toNumericList cells = .ok cap := by
  unfold validateCapacityColumn at h
  split at h
  · exact absurd h (by simp)
  next cells hc =>
    split at h
    · exact absurd h (by simp)
    next cap hcap => exact ⟨cells, cap, hc, hcap⟩

/-! ## C1: the normalized-capacity arithmetic -/

/-- C1: on a validated table and metadata (capacity column coerced, mass
parsed strictly positive), normalization with no missing or negative
capacity produces the augmented table, and any successful normalization
yields a `Normalized Capacity (mAh/g)` column holding, per row, exactly
`capacity / (mass_mg / 1000)`. -/
theorem c1_normalized_capacity (cc mk : String) (t : RawTable) (md : Metadata)
    (massMg : ℚ) (cells : List CellVal) (cap : List (Option ℚ))
    (hwf : ∀ r ∈ t.rows, r.length = t.columns.length)
    (hm : validateMass mk md = .ok (PyFloat.finite massMg))
    (hc : getCol t cc = some cells)
    (hcap : toNumericList cells = .ok cap) :
    (cap.any (fun q => q.isNone) = false →
      cap.any (fun q => decide (q.getD 0 < 0)) = false →
      addNormalizedCapacity cc mk t md = .ok (setCol t normalizedColName
        (cap.map (fun q => CellVal.num (q.getD 0 / (massMg / 1000)))))) ∧
    (∀ t', addNormalizedCapacity cc mk t md = .ok t' →
      getCol t' normalizedColName =
        some (cap.map (fun q => CellVal.num (q.getD 0 / (massMg / 1000))))) := by
  have hval := validateCapacityColumn_ok_of hc hcap
  have hcells : (getCol t cc).getD [] = cells := by rw [hc]; rfl
  constructor
  · intro h1 h2
    simp [addNormalizedCapacity, hval, hm, hcells, hcap, h1, h2, normalizeCell]
  · intro t' h
    obtain ⟨massMg', cap', hval', hm', hcap', h1, h2, ht'⟩ := addNorm_ok_elim h
    have hmm : massMg' = PyFloat.finite massMg := by
      rw [hm] at hm'
      exact (Except.ok.inj hm').symm
    have hcc : cap' = cap := by
      rw [hcells, hcap] at hcap'
      exact (Except.ok.inj hcap').symm
    subst ht'
    rw [hmm, hcc]
    simp only [normalizeCell]
    apply getCol_setCol_self t normalizedColName _ hwf
    rw [List.length_map, toNumericList_ok_length hcap, getCol_length hc]

/-- Witness for `c1_normalized_capacity`: one row with capacity 5 mAh and
mass 250 mg yields a normalized value of exactly 5 / (250/1000) = 20. -/
theorem c1_normalized_capacity_witness :
    getCol ⟨["Capacity/mA.h", "Normalized Capacity (mAh/g)"],
        [[CellVal.num 5, CellVal.num 20]]⟩ normalizedColName =
      some ([some (5 : ℚ)].map (fun q => CellVal.num (q.getD 0 / ((250 : ℚ) / 1000)))) :=
  (c1_normalized_capacity capacityColDefault massKeyDefault
      ⟨["Capacity/mA.h"], [[CellVal.num 5]]⟩
      [("WE Active Material Mass (mg)", "250")]
      250 [CellVal.num 5] [some 5]
      (by decide) (by with_unfolding_all rfl) (by with_unfolding_all rfl)
      (by with_unfolding_all rfl)).2
    ⟨["Capacity/mA.h", "Normalized Capacity (mAh/g)"], [[CellVal.num 5, CellVal.num 20]]⟩
    (by with_unfolding_all rfl)

/-! ## C10: frame of the in-place augmentation -/

/-- C10: a successful normalization returns the input table updated by the
single column assignment `df[normalizedColName] = vals` (explicit state
passing for the in-place mutation): the one column is added at the end when
absent or overwritten when present, the row count is unchanged, and every
other pre-existing column reads back exactly as before. -/
theorem c10_in_place_augment (cc mk : String) (t : RawTable) (md : Metadata)
    (t' : RawTable)
    (_hnd : t.columns.Nodup)
    (hwf : ∀ r ∈ t.rows, r.length = t.columns.length)
    (h : addNormalizedCapacity cc mk t md = .ok t') :
    (∃ vals, t' = setCol t normalizedColName vals) ∧
    (normalizedColName ∈ t.columns → t'.columns = t.columns) ∧
    (normalizedColName ∉ t.columns → t'.columns = t.columns ++ [normalizedColName]) ∧
    t'.rows.length = t.rows.length ∧
    (∀ c ∈ t.columns, c ≠ normalizedColName → getCol t' c = getCol t c) := by
  obtain ⟨massMg, cap, hval, hm, hcap, h1, h2, ht'⟩ := addNorm_ok_elim h
  obtain ⟨cells, cap0, hc, hcap0⟩ := validateCapacityColumn_ok_elim hval
  have hcells : (getCol t cc).getD [] = cells := by rw [hc]; rfl
  have hcc : cap = cap0 := by
    rw [hcells, hcap0] at hcap
    exact (Except.ok.inj hcap).symm
  have hlen : (cap.map (fun q => normalizeCell massMg (q.getD 0))).length
      = t.rows.length := by
    rw [List.length_map, hcc, toNumericList_ok_length hcap0, getCol_length hc]
  subst ht'
  refine ⟨⟨_, rfl⟩, fun hmem => setCol_columns_of_mem _ hmem,
    fun hnm => setCol_columns_of_not_mem _ hnm, setCol_rows_length hlen, ?_⟩
  intro c hmem hne
  exact getCol_setCol_ne t normalizedColName c _ hwf hlen hmem hne

/-- Witness for `c10_in_place_augment`: after augmenting a one-column,
one-row table, the pre-existing capacity column reads back unchanged. -/
theorem c10_in_place_augment_witness :
    getCol ⟨["Capacity/mA.h", "Normalized Capacity (mAh/g)"],
        [[CellVal.num 5, CellVal.num 20]]⟩ "Capacity/mA.h" =
      getCol ⟨["Capacity/mA.h"], [[CellVal.num 5]]⟩ "Capacity/mA.h" :=
  (c10_in_place_augment capacityColDefault massKeyDefault
      ⟨["Capacity/mA.h"], [[CellVal.num 5]]⟩
      [("WE Active Material Mass (mg)", "250")]
      ⟨["Capacity/mA.h", "Normalized Capacity (mAh/g)"], [[CellVal.num 5, CellVal.num 20]]⟩
      (by decide) (by decide) (by with_unfolding_all rfl)).2.2.2.2
    "Capacity/mA.h" (by decide) (by decide)

/-! ## C6: catalog enumeration deduplicates, first seen wins -/

theorem alookup_foldl_stepCellMap (cid : String) :
    ∀ (files : List DriveFile) (acc : List (String × FileInfo)),
      alookup cid (files.foldl stepCellMap acc) =
        (alookup cid acc).or
          ((files.find? (fun f => decide (scanFile f = ScanOutcome.candidate cid))).map
            describeFile) := by
  intro files
  induction files with
  | nil => intro acc; simp
  | cons f fs ih =>
    intro acc
    rw [List.foldl_cons, ih]
    cases hsf : scanFile f with
    | skippedSilently =>
      have hstep : stepCellMap acc f = acc := by simp [stepCellMap, hsf]
      rw [hstep, List.find?_cons_of_neg _ (by simp [hsf])]
    | skippedReported n =>
      have hstep : stepCellMap acc f = acc := by simp [stepCellMap, hsf]
      rw [hstep, List.find?_cons_of_neg _ (by simp [hsf])]
    | candidate cid' =>
      by_cases hc : cid' = cid
      · subst hc
        rw [List.find?_cons_of_pos _ (by simp [hsf])]
        cases hacc : alookup cid' acc with
        | some v =>
          have hstep : stepCellMap acc f = acc := by simp [stepCellMap, hsf, hacc]
          rw [hstep, hacc]
          simp
        | none =>
          have hstep : stepCellMap acc f = acc ++ [(cid', describeFile f)] := by
            simp [stepCellMap, hsf, hacc]
          rw [hstep, alookup_append, hacc]
          simp [alookup]
      · rw [List.find?_cons_of_neg _ (by simp [hsf, hc])]
        cases hacc : alookup cid' acc with
        | some v =>
          have hstep : stepCellMap acc f = acc := by simp [stepCellMap, hsf, hacc]
          rw [hstep]
        | none =>
          have hstep : stepCellMap acc f = acc ++ [(cid', describeFile f)] := by
            simp [stepCellMap, hsf, hacc]
          rw [hstep, alookup_append]
          simp [alookup, hc]

theorem keys_nodup_foldl_stepCellMap :
    ∀ (files : List DriveFile) (acc : List (String × FileInfo)),
      (acc.map Prod.fst).Nodup → ((files.foldl stepCellMap acc).map Prod.fst).Nodup := by
  intro files
  induction files with
  | nil => intro acc h; exact h
  | cons f fs ih =>
    intro acc h
    rw [List.foldl_cons]
    apply ih
    cases hsf : scanFile f with
    | skippedSilently => simpa [stepCellMap, hsf] using h
    | skippedReported n => simpa [stepCellMap, hsf] using h
    | candidate cid =>
      cases hacc : alookup cid acc with
      | some v => simpa [stepCellMap, hsf, hacc] using h
      | none =>
        have hnin : cid ∉ acc.map Prod.fst := (alookup_eq_none_iff cid acc).mp hacc
        have hstep : stepCellMap acc f = acc ++ [(cid, describeFile f)] := by
          simp [stepCellMap, hsf, hacc]
        rw [hstep, List.map_append]
        simp [List.nodup_append, h, hnin]

/-- C6: the catalog built from a listed sequence of files contains each
extracted cell identifier at most once, maps every identifier to the
descriptor of the first file in arrival order that yields it, and on the
files `MEN0001_a.txt` then `MEN0001_b.txt` maps `MEN0001` to file `a`. -/
theorem c6_catalog_first_seen_wins :
    (∀ files : List DriveFile, ((buildCellMap files).map Prod.fst).Nodup) ∧
    (∀ (files : List DriveFile) (cid : String),
      alookup cid (buildCellMap files) =
        (files.find? (fun f => decide (scanFile f = ScanOutcome.candidate cid))).map
          describeFile) ∧
    buildCellMap [⟨"ida", "MEN0001_a.txt", "t1", "s1"⟩, ⟨"idb", "MEN0001_b.txt", "t2", "s2"⟩]
      = [("MEN0001", ⟨"ida", "MEN0001_a.txt", "t1", "s1"⟩)] := by
  refine ⟨fun files => keys_nodup_foldl_stepCellMap files [] (by simp),
    fun files cid => ?_, by decide⟩
  rw [buildCellMap, alookup_foldl_stepCellMap]
  simp [alookup]

/-! ## C8: the filename identifier pattern -/

theorem digit_not_letter {c : Char} (h : isAsciiDigit c = true) :
    isAsciiLetter c = false := by
  simp only [isAsciiDigit, Bool.and_eq_true, decide_eq_true_eq] at h
  simp only [isAsciiLetter, Bool.or_eq_false_iff, Bool.and_eq_false_iff,
    decide_eq_false_iff_not, not_le]
  omega

theorem takeWhile_middle (p : Char → Bool) (L : List Char) (d : Char) (r : List Char)
    (hL : ∀ c ∈ L, p c = true) (hd : p d = false) :
    (L ++ d :: r).takeWhile p = L ∧ (L ++ d :: r).dropWhile p = d :: r := by
  induction L with
  | nil => simp [List.takeWhile_cons, List.dropWhile_cons, hd]
  | cons a Lt ih =>
    have ha : p a = true := hL a (by simp)
    have ih' := ih (fun c hc => hL c (by simp [hc]))
    simp [List.takeWhile_cons, List.dropWhile_cons, ha, ih'.1, ih'.2]

/-- C8: a cell identifier is extracted from a filename exactly when the name
begins with 2 or more ASCII letters, then 4 or more ASCII digits, then an
underscore, the identifier being that letter-digit prefix; non-`.txt` files
are skipped silently, `.txt` files without a valid identifier are skipped
with a report, and in particular `xx12_foo.txt` (only 2 digits) is skipped
with a report rather than crashing. -/
theorem c8_filename_pattern :
    (∀ (name : String) (cid : String), extractCellId name = some cid ↔
      ∃ (L D rest : List Char), name.data = L ++ D ++ '_' :: rest ∧
        2 ≤ L.length ∧ 4 ≤ D.length ∧
        (∀ c ∈ L, isAsciiLetter c = true) ∧ (∀ c ∈ D, isAsciiDigit c = true) ∧
        cid = ⟨L ++ D⟩) ∧
    (∀ f : DriveFile, pyEndsWith f.name ".txt" = false →
      scanFile f = .skippedSilently) ∧
    (∀ f : DriveFile, pyEndsWith f.name ".txt" = true → extractCellId f.name = none →
      scanFile f = .skippedReported f.name) ∧
    scanFile ⟨"id0", "xx12_foo.txt", "", ""⟩ = .skippedReported "xx12_foo.txt" := by
  refine ⟨?_, ?_, ?_, by decide⟩
  · intro name cid
    constructor
    · intro h
      simp only [extractCellId] at h
      split at h
      next rest2 heq =>
        split at h
        next hcond =>
          simp only [Option.some.injEq] at h
          simp only [Bool.and_eq_true, decide_eq_true_eq] at hcond
          refine ⟨name.data.takeWhile isAsciiLetter,
            (name.data.dropWhile isAsciiLetter).takeWhile isAsciiDigit, rest2,
            ?_, hcond.1, hcond.2, fun c hc => List.mem_takeWhile_imp hc,
            fun c hc => List.mem_takeWhile_imp hc, h.symm⟩
          conv_lhs => rw [← List.takeWhile_append_dropWhile (p := isAsciiLetter)
            (l := name.data)]
          rw [List.append_assoc]
          congr 1
          conv_lhs => rw [← List.takeWhile_append_dropWhile (p := isAsciiDigit)
            (l := name.data.dropWhile isAsciiLetter)]
          rw [heq]
        next => exact absurd h (by simp)
      next => exact absurd h (by simp)
    · rintro ⟨L, D, rest, hname, hL2, hD4, hLlet, hDdig, hcid⟩
      cases D with
      | nil => simp at hD4
      | cons d D' =>
        have hd : isAsciiLetter d = false := digit_not_letter (hDdig d (by simp))
        have h1 := takeWhile_middle isAsciiLetter L d (D' ++ '_' :: rest) hLlet hd
        have hu : isAsciiDigit '_' = false := by decide
        have h2 := takeWhile_middle isAsciiDigit (d :: D') '_' rest hDdig hu
        have hform : name.data = L ++ (d :: (D' ++ '_' :: rest)) := by
          rw [hname]; simp
        have ht1 : name.data.takeWhile isAsciiLetter = L := by rw [hform]; exact h1.1
        have ht2 : name.data.dropWhile isAsciiLetter = d :: (D' ++ '_' :: rest) := by
          rw [hform]; exact h1.2
        have hd2 : d :: (D' ++ '_' :: rest) = (d :: D') ++ '_' :: rest := by simp
        have ht3 : (name.data.dropWhile isAsciiLetter).takeWhile isAsciiDigit = d :: D' := by
          rw [ht2, hd2]; exact h2.1
        have ht4 : (name.data.dropWhile isAsciiLetter).dropWhile isAsciiDigit
            = '_' :: rest := by
          rw [ht2, hd2]; exact h2.2
        simp only [extractCellId, ht1, ht3, ht4]
        rw [if_pos (by simp only [Bool.and_eq_true, decide_eq_true_eq]; exact ⟨hL2, hD4⟩),
          hcid]
  · intro f h
    simp [scanFile, h]
  · intro f h1 h2
    simp [scanFile, h1, h2]

/-- Witness for `c8_filename_pattern`: a non-`.txt` file is skipped
silently, and a valid name extracts its identifier. -/
theorem c8_filename_pattern_witness :
    scanFile ⟨"id9", "notes.pdf", "", ""⟩ = .skippedSilently ∧
    extractCellId "MEN0001_a.txt" = some "MEN0001" :=
  ⟨c8_filename_pattern.2.1 ⟨"id9", "notes.pdf", "", ""⟩ (by decide),
    (c8_filename_pattern.1 "MEN0001_a.txt" "MEN0001").mpr
      ⟨['M', 'E', 'N'], ['0', '0', '0', '1'], ['a', '.', 't', 'x', 't'],
        by decide, by decide, by decide, by decide, by decide, by decide⟩⟩

/-! ## C2: batch loading behavior -/

/-- Concrete collaborator for exercising the batch loader: the file id
`f_bad` fails at transport, every other id returns a loadable table. -/
def fetchRawCex : String → Except LoadError RawTable := fun fid =>
  if fid = "f_bad" then .error (.collaboratorError "HttpError 404")
  else .ok ⟨["Capacity/mA.h"], [[CellVal.num 5]]⟩

/-- Concrete metadata collaborator: every cell id has a 250 mg mass row. -/
def fetchMetaCex : String → Except LoadError Metadata := fun _ =>
  .ok [("WE Active Material Mass (mg)", "250")]

/-- C2, counterexample: with the first cell's download failing at transport
and the second cell perfectly loadable, the batch call returns the bare
collaborator error and no mapping at all, although the second identifier
alone loads fine — outcomes are not independent and no per-cell
identifier-to-error mapping is produced. -/
theorem c2_counterexample :
    loadAllCellData fetchRawCex fetchMetaCex
        [("MEN0001", ⟨"f_bad", "MEN0001_a.txt", "", ""⟩),
         ("MEN0002", ⟨"f_ok", "MEN0002_a.txt", "", ""⟩)]
      = .error (.collaboratorError "HttpError 404") ∧
    loadAllCellData fetchRawCex fetchMetaCex
        [("MEN0002", ⟨"f_ok", "MEN0002_a.txt", "", ""⟩)]
      = .ok [("MEN0002",
          (⟨["Capacity/mA.h", "Normalized Capacity (mAh/g)"],
            [[CellVal.num 5, CellVal.num 20]]⟩,
           [("WE Active Material Mass (mg)", "250")]))] :=
  ⟨by with_unfolding_all rfl, by with_unfolding_all rfl⟩

/-- C2, amended: the batch loader visits the requested identifiers in order
but aborts on the first failing cell — a missing file id, a failing raw
fetch, a failing metadata fetch, or a failing normalization makes the whole
call return that error unchanged (bare collaborator errors included), with
no results for the remaining identifiers; only when a cell succeeds is its
result prepended to the outcome of the rest of the batch. -/
theorem c2_batch_aborts_on_first_error
    (fetchRaw : String → Except LoadError RawTable)
    (fetchMeta : String → Except LoadError Metadata) :
    loadAllCellData fetchRaw fetchMeta [] = .ok [] ∧
    (∀ cellId info rest, info.fileId = "" →
      loadAllCellData fetchRaw fetchMeta ((cellId, info) :: rest)
        = .error (.missingFileId cellId)) ∧
    (∀ cellId info rest e, info.fileId ≠ "" → fetchRaw info.fileId = .error e →
      loadAllCellData fetchRaw fetchMeta ((cellId, info) :: rest) = .error e) ∧
    (∀ cellId info rest raw e, info.fileId ≠ "" → fetchRaw info.fileId = .ok raw →
      fetchMeta cellId = .error e →
      loadAllCellData fetchRaw fetchMeta ((cellId, info) :: rest) = .error e) ∧
    (∀ cellId info rest raw md e, info.fileId ≠ "" → fetchRaw info.fileId = .ok raw →
      fetchMeta cellId = .ok md →
      addNormalizedCapacity capacityColDefault massKeyDefault raw md = .error e →
      loadAllCellData fetchRaw fetchMeta ((cellId, info) :: rest) = .error e) ∧
    (∀ cellId info rest raw md t', info.fileId ≠ "" → fetchRaw info.fileId = .ok raw →
      fetchMeta cellId = .ok md →
      addNormalizedCapacity capacityColDefault massKeyDefault raw md = .ok t' →
      loadAllCellData fetchRaw fetchMeta ((cellId, info) :: rest)
        = (loadAllCellData fetchRaw fetchMeta rest).map
            (fun acc => (cellId, (t', md)) :: acc)) := by
  refine ⟨rfl, ?_, ?_, ?_, ?_, ?_⟩
  · intro cellId info rest h
    simp [loadAllCellData, h]
  · intro cellId info rest e h he
    simp [loadAllCellData, h, he]
  · intro cellId info rest raw e h h1 h2
    simp [loadAllCellData, h, h1, h2]
  · intro cellId info rest raw md e h h1 h2 h3
    simp [loadAllCellData, h, h1, h2, h3]
  · intro cellId info rest raw md t' h h1 h2 h3
    simp only [loadAllCellData, if_neg h, h1, h2, h3]
    cases hr : loadAllCellData fetchRaw fetchMeta rest <;> simp [Except.map]

/-- Witness for `c2_batch_aborts_on_first_error`: a one-cell batch whose
download fails returns that collaborator error. -/
theorem c2_batch_aborts_witness :
    loadAllCellData fetchRawCex fetchMetaCex
        [("MEN0001", ⟨"f_bad", "MEN0001_a.txt", "", ""⟩)]
      = .error (.collaboratorError "HttpError 404") :=
  (c2_batch_aborts_on_first_error fetchRawCex fetchMetaCex).2.2.1
    "MEN0001" ⟨"f_bad", "MEN0001_a.txt", "", ""⟩ []
    (.collaboratorError "HttpError 404")
    (by decide) (by with_unfolding_all rfl)

end EChem
